import Mathlib

/-!
# Shallow embedding of the katana `Manager` scheduler core (src/katana/manager.py)

Python values are modelled as follows: `bytes` as `List Nat` (each element a
byte value), `str` as `List Nat` (each element a Unicode code point), nested
`list`/`tuple` data as the inductive `PyData`.  Raised exceptions are modelled
by an explicit `Bool` "raised" component or an error constructor.  The compiled
flag regex (`self.flag_pattern.search`) and the unit finder are external
collaborators and are taken as function parameters; a regex search is
characterised only by the fact that a reported match is a contiguous span of
the searched data.
-/

namespace Katana

/-- A byte is a continuation byte of a UTF-8 sequence (0x80..0xBF). -/
def isCont (b : Nat) : Prop := 128 ≤ b ∧ b ≤ 191

instance (b : Nat) : Decidable (isCont b) := by unfold isCont; infer_instance

/-- One step of strict UTF-8 decoding, exactly the sequences Python's
`bytes.decode('utf-8')` accepts: ASCII, 2-byte (C2..DF), 3-byte (E0..EF with
the E0/ED range restrictions that exclude overlongs and surrogates), 4-byte
(F0..F4 with the F0/F4 restrictions).  Given the first byte and the remaining
bytes, returns the decoded code point and the bytes after the sequence, or
`none` on malformed input. -/
def decode1 (b : Nat) (rest : List Nat) : Option (Nat × List Nat) :=
  if b < 128 then some (b, rest)
  else if b < 194 then none
  else if b ≤ 223 then
    match rest with
    | b1 :: r => if isCont b1 then some ((b - 192) * 64 + (b1 - 128), r) else none
    | [] => none
  else if b ≤ 239 then
    match rest with
    | b1 :: b2 :: r =>
      if isCont b1 ∧ isCont b2 ∧ (b = 224 → 160 ≤ b1) ∧ (b = 237 → b1 ≤ 159) then
        some ((b - 224) * 4096 + (b1 - 128) * 64 + (b2 - 128), r)
      else none
    | _ => none
  else if b ≤ 244 then
    match rest with
    | b1 :: b2 :: b3 :: r =>
      if isCont b1 ∧ isCont b2 ∧ isCont b3 ∧ (b = 240 → 144 ≤ b1) ∧ (b = 244 → b1 ≤ 143) then
        some ((b - 240) * 262144 + (b1 - 128) * 4096 + (b2 - 128) * 64 + (b3 - 128), r)
      else none
    | _ => none
  else none

/-- A decode step never returns more bytes than it was given. -/
theorem decode1_length (b : Nat) (rest : List Nat) (c : Nat) (r : List Nat)
    (h : decode1 b rest = some (c, r)) : r.length ≤ rest.length := by
  unfold decode1 at h
  split at h
  · simp at h
    obtain ⟨h1, h2⟩ := h
    subst h2
    omega
  · split at h
    · cases h
    · split at h
      · rcases rest with _ | ⟨b1, r1⟩
        · cases h
        · simp only [] at h
          split at h
          · simp at h
            obtain ⟨h1, h2⟩ := h
            subst h2
            simp only [List.length_cons]
            omega
          · cases h
      · split at h
        · rcases rest with _ | ⟨b1, _ | ⟨b2, r1⟩⟩
          · cases h
          · cases h
          · simp only [] at h
            split at h
            · simp at h
              obtain ⟨h1, h2⟩ := h
              subst h2
              simp only [List.length_cons]
              omega
            · cases h
        · split at h
          · rcases rest with _ | ⟨b1, _ | ⟨b2, _ | ⟨b3, r1⟩⟩⟩
            · cases h
            · cases h
            · cases h
            · simp only [] at h
              split at h
              · simp at h
                obtain ⟨h1, h2⟩ := h
                subst h2
                simp only [List.length_cons]
                omega
              · cases h
          · cases h

/-- Strict UTF-8 decoding of a whole byte string to its list of code points,
as Python's `bytes.decode('utf-8')`; `none` models `UnicodeDecodeError`. -/
def decodeUtf8 : List Nat → Option (List Nat)
  | [] => some []
  | b :: rest =>
    match h : decode1 b rest with
    | none => none
    | some (c, r) => (decodeUtf8 r).map (fun t => c :: t)
termination_by l => l.length
decreasing_by
  have := decode1_length b rest c r h
  simp only [List.length_cons]
  omega

/-- UTF-8 encoding of one code point (assumed non-surrogate and below
0x110000, which the caller checks). -/
def encodeChar (c : Nat) : List Nat :=
  if c < 128 then [c]
  else if c < 2048 then [192 + c / 64, 128 + c % 64]
  else if c < 65536 then [224 + c / 4096, 128 + (c / 64) % 64, 128 + c % 64]
  else [240 + c / 262144, 128 + (c / 4096) % 64, 128 + (c / 64) % 64, 128 + c % 64]

/-- Python `str.encode('utf-8')`: encodes each code point; raises
(`none`, modelling `UnicodeEncodeError`) on a lone surrogate or an
out-of-range code point. -/
def encodeUtf8 : List Nat → Option (List Nat)
  | [] => some []
  | c :: rest =>
    if c < 1114112 ∧ ¬(55296 ≤ c ∧ c ≤ 57343) then
      (encodeUtf8 rest).map (fun t => encodeChar c ++ t)
    else none

/-- Largest index of a `>` byte (62) in a list, or `none`. -/
def lastGt : List Nat → Option Nat
  | [] => none
  | b :: rest =>
    match lastGt rest with
    | some p => some (p + 1)
    | none => if b = 62 then some 0 else none

/-- For `rest` = the bytes following a `<` (60), the number of bytes of `rest`
consumed by a leftmost-greedy match of the Python regex `<[^<]+>` starting at
that `<`, or `none` if it does not match there.  The greedy `[^<]+` with
backtracking means the match ends at the last `>` inside the run of
non-`<` bytes following the `<`, and at least one byte must precede that
`>`. -/
def tagConsume (rest : List Nat) : Option Nat :=
  match lastGt (rest.takeWhile (fun b => ¬ b = 60)) with
  | some p => if 1 ≤ p then some (p + 1) else none
  | none => none

/-- `re.sub(b'<[^<]+>', b'', data)`: remove every (leftmost, greedy,
non-overlapping) match of `<[^<]+>` from `data`.  This is the `no_xml`
computation of `Manager.find_flag`. -/
def stripXml : List Nat → List Nat
  | [] => []
  | b :: rest =>
    if b = 60 then
      match tagConsume rest with
      | some n => stripXml (rest.drop n)
      | none => b :: stripXml rest
    else b :: stripXml rest
termination_by l => l.length
decreasing_by
  all_goals simp only [List.length_cons]
  · have := List.length_drop n rest
    omega
  · omega
  · omega

/-- The XML-stripped form is never longer than the input. -/
theorem stripXml_length_le (l : List Nat) : (stripXml l).length ≤ l.length := by
  induction l using stripXml.induct with
  | case1 => simp [stripXml]
  | case2 rest n htag ih =>
    simp only [stripXml, htag, List.length_cons, if_true, eq_self_iff_true]
    have h1 := List.length_drop n rest
    simp at ih ⊢
    omega
  | case3 rest htag ih =>
    simp only [stripXml, htag, List.length_cons, if_true, eq_self_iff_true]
    simp at ih ⊢
    omega
  | case4 b rest hb ih =>
    simp only [stripXml, if_neg hb, List.length_cons]
    omega

/-- If stripping removed anything, the result is strictly shorter. -/
theorem stripXml_length_lt (l : List Nat) (hne : stripXml l ≠ l) :
    (stripXml l).length < l.length := by
  induction l using stripXml.induct with
  | case1 => simp [stripXml] at hne
  | case2 rest n htag ih =>
    simp only [stripXml, htag] at hne ⊢
    simp only [List.length_cons]
    have h1 := stripXml_length_le (rest.drop n)
    have h2 := List.length_drop n rest
    simp at h1 ⊢
    omega
  | case3 rest htag ih =>
    simp only [stripXml, htag] at hne ⊢
    simp only [List.length_cons]
    simp at hne ⊢
    have := ih hne
    omega
  | case4 b rest hb ih =>
    simp only [stripXml, if_neg hb] at hne ⊢
    simp only [ne_eq, List.cons.injEq, true_and] at hne
    have := ih hne
    simp only [List.length_cons]
    omega

/-- An abstract regex search function (the compiled `flag_pattern.search`): on
a byte string it reports either no match or a decomposition
`(prefix, match, suffix)` of the input. -/
abbrev Search := List Nat → Option (List Nat × List Nat × List Nat)

/-- A search function is well formed when every reported match really is a
contiguous span of the searched data. -/
def SearchSpans (search : Search) : Prop :=
  ∀ c pre mid suf, search c = some (pre, mid, suf) → c = pre ++ mid ++ suf

/-- One flag registration recorded by `find_flag`: the candidate byte string
that was being searched, the matched byte span, and the decoded flag text
(code points) that was passed to `register_flag`. -/
abbrev Reg := List Nat × List Nat × List Nat

/-- The non-recursive tail of `Manager.find_flag` on one byte-string
candidate: `self.flag_pattern.search(data)`; on a match, decode the matched
bytes as UTF-8 (`match.group().decode('utf-8')` — `UnicodeDecodeError` is the
`true` raised component), require printability via the external predicate `ip`
(`katana.util.isprintable`), and register the flag subject to the
`STRICT_FLAGS` whole-data length test `len(found) == len(data)`.  Returns the
registrations (zero or one) and whether the step raised. -/
def searchStep (search : Search) (strict : Bool) (ip : List Nat → Bool)
    (data : List Nat) : List Reg × Bool :=
  match search data with
  | none => ([], false)
  | some (_, m, _) =>
    match decodeUtf8 m with
    | none => ([], true)
    | some found =>
      if ip found then
        if strict = true ∧ found.length = data.length then ([(data, m, found)], false)
        else if strict = false then ([(data, m, found)], false)
        else ([], false)
      else ([], false)

/-- The byte-level body of `Manager.find_flag` (after list/str normalisation):
compute `no_xml`, recurse on it first when it differs from `data` (an
exception raised there propagates before the original is searched), then run
`searchStep` on `data` itself.  Returns the list of registrations made before
returning or raising, and whether the call raised. -/
def find_flagBytes (search : Search) (strict : Bool) (ip : List Nat → Bool)
    (data : List Nat) : List Reg × Bool :=
  let inner : List Reg × Bool :=
    if h : stripXml data = data then ([], false)
    else find_flagBytes search strict ip (stripXml data)
  if inner.2 then inner
  else
    (inner.1 ++ (searchStep search strict ip data).1, (searchStep search strict ip data).2)
termination_by data.length
decreasing_by exact stripXml_length_lt data h

/-- The `data` argument of `Manager.find_flag`: Python `bytes`, `str`, or an
arbitrarily nested `list`/`tuple` of such values. -/
inductive PyData where
  | bytes (bs : List Nat)
  | str (s : List Nat)
  | list (items : List PyData)

mutual

/-- `Manager.find_flag`: iterate over lists/tuples element by element (an
exception raised by an element stops the iteration and propagates), encode
`str` data to UTF-8 bytes (which can raise on lone surrogates) and search
byte data with `find_flagBytes`.  Returns the flag registrations performed
and whether the call raised. -/
def find_flag (search : Search) (strict : Bool) (ip : List Nat → Bool) :
    PyData → List Reg × Bool
  | .bytes bs => find_flagBytes search strict ip bs
  | .str s =>
    match encodeUtf8 s with
    | some bs => find_flagBytes search strict ip bs
    | none => ([], true)
  | .list items => find_flagList search strict ip items

/-- The `for item in data` loop of `find_flag` over a list/tuple. -/
def find_flagList (search : Search) (strict : Bool) (ip : List Nat → Bool) :
    List PyData → List Reg × Bool
  | [] => ([], false)
  | d :: ds =>
    let r := find_flag search strict ip d
    if r.2 then r
    else
      let r2 := find_flagList search strict ip ds
      (r.1 ++ r2.1, r2.2)

end

/-- Each decoded code point consumes at least one byte, so a decoded string is
never longer (in code points) than its UTF-8 encoding (in bytes). -/
theorem decodeUtf8_length_le :
    ∀ n l cps, l.length ≤ n → decodeUtf8 l = some cps → cps.length ≤ l.length := by
  intro n
  induction n with
  | zero =>
    intro l cps hlen hdec
    have hl : l = [] := List.length_eq_zero.mp (Nat.le_zero.mp hlen)
    subst hl
    rw [decodeUtf8] at hdec
    simp at hdec
    subst hdec
    simp
  | succ n ih =>
    intro l cps hlen hdec
    match l with
    | [] =>
      rw [decodeUtf8] at hdec
      simp at hdec
      subst hdec
      simp
    | b :: rest =>
      rw [decodeUtf8] at hdec
      split at hdec
      · exact absurd hdec (by simp)
      · rename_i c r heq
        rw [Option.map_eq_some'] at hdec
        obtain ⟨t, ht, hc⟩ := hdec
        have hr := decode1_length b rest c r heq
        have hrn : r.length ≤ n := by
          simp only [List.length_cons] at hlen
          omega
        have := ih r t hrn ht
        subst hc
        simp only [List.length_cons]
        omega

/-- Characterisation of a registration produced by `searchStep`: the candidate
is the searched data, the flag text is the decoding of the matched bytes, the
match was reported by the search, and under `STRICT_FLAGS` the decoded length
equals the data length. -/
theorem searchStep_mem (search : Search) (strict : Bool) (ip : List Nat → Bool)
    (data c m f : List Nat) (h : (c, m, f) ∈ (searchStep search strict ip data).1) :
    c = data ∧ decodeUtf8 m = some f ∧ (∃ p s, search data = some (p, m, s)) ∧
      (strict = true → f.length = data.length) := by
  unfold searchStep at h
  split at h
  · simp at h
  · rename_i p m2 s hs
    split at h
    · simp at h
    · rename_i found hd
      split at h
      · rename_i hip
        split at h
        · rename_i hstr
          simp at h
          obtain ⟨h1, h2, h3⟩ := h
          subst h1; subst h2; subst h3
          exact ⟨rfl, hd, ⟨p, s, hs⟩, fun _ => hstr.2⟩
        · rename_i hstr
          split at h
          · rename_i hsf
            simp at h
            obtain ⟨h1, h2, h3⟩ := h
            subst h1; subst h2; subst h3
            refine ⟨rfl, hd, ⟨p, s, hs⟩, fun hc => ?_⟩
            rw [hc] at hsf; exact absurd hsf (by simp)
          · simp at h
      · simp at h

/-- Unfolding `find_flagBytes` when the XML strip is a fixed point: only the
searched data itself is a candidate. -/
theorem find_flagBytes_fix (search : Search) (strict : Bool) (ip : List Nat → Bool)
    (data : List Nat) (hfix : stripXml data = data) :
    find_flagBytes search strict ip data = searchStep search strict ip data := by
  rw [find_flagBytes]
  simp [hfix]

/-- Unfolding `find_flagBytes` when the XML strip changed the data: the
stripped form is processed first and a raise there propagates. -/
theorem find_flagBytes_ne (search : Search) (strict : Bool) (ip : List Nat → Bool)
    (data : List Nat) (hne : stripXml data ≠ data) :
    find_flagBytes search strict ip data =
      if (find_flagBytes search strict ip (stripXml data)).2 then
        find_flagBytes search strict ip (stripXml data)
      else
        ((find_flagBytes search strict ip (stripXml data)).1 ++
            (searchStep search strict ip data).1,
          (searchStep search strict ip data).2) := by
  rw [find_flagBytes]
  simp [hne]

/-- Under `STRICT_FLAGS`, a registration produced by `searchStep` on a
span-respecting search matches the entire candidate. -/
theorem searchStep_strict_whole (search : Search) (ip : List Nat → Bool)
    (hs : SearchSpans search) (data c m f : List Nat)
    (h : (c, m, f) ∈ (searchStep search true ip data).1) : m = c := by
  obtain ⟨hc, hdec, ⟨p, s, hsrch⟩, hlen⟩ := searchStep_mem search true ip data c m f h
  subst hc
  have h1 : f.length ≤ m.length := decodeUtf8_length_le m.length m f (le_refl _) hdec
  have h2 : c = p ++ m ++ s := hs c p m s hsrch
  have h3 := congrArg List.length h2
  simp only [List.length_append] at h3
  have h4 : f.length = c.length := hlen rfl
  have hp : p.length = 0 := by omega
  have hsl : s.length = 0 := by omega
  rw [List.length_eq_zero] at hp hsl
  rw [h2, hp, hsl]
  simp

/-- Under `STRICT_FLAGS`, every registration made anywhere inside
`find_flagBytes` (including on XML-stripped candidates) matches its entire
candidate byte string. -/
theorem find_flagBytes_strict_spans (search : Search) (ip : List Nat → Bool)
    (hs : SearchSpans search) :
    ∀ n data, data.length ≤ n → ∀ c m f,
      (c, m, f) ∈ (find_flagBytes search true ip data).1 → m = c := by
  intro n
  induction n with
  | zero =>
    intro data hlen c m f hmem
    have hd : data = [] := List.length_eq_zero.mp (Nat.le_zero.mp hlen)
    subst hd
    rw [find_flagBytes_fix search true ip [] (by simp [stripXml])] at hmem
    exact searchStep_strict_whole search ip hs [] c m f hmem
  | succ n ih =>
    intro data hlen c m f hmem
    by_cases hfix : stripXml data = data
    · rw [find_flagBytes_fix search true ip data hfix] at hmem
      exact searchStep_strict_whole search ip hs data c m f hmem
    · rw [find_flagBytes_ne search true ip data hfix] at hmem
      have hlt := stripXml_length_lt data hfix
      have hlen2 : (stripXml data).length ≤ n := by omega
      by_cases hr : (find_flagBytes search true ip (stripXml data)).2
      · rw [if_pos hr] at hmem
        exact ih (stripXml data) hlen2 c m f hmem
      · rw [if_neg hr] at hmem
        simp only [List.mem_append] at hmem
        rcases hmem with hmem | hmem
        · exact ih (stripXml data) hlen2 c m f hmem
        · exact searchStep_strict_whole search ip hs data c m f hmem

/-- With `STRICT_FLAGS` off, a printable decodable match on the data itself is
always registered when the call returns without raising. -/
theorem find_flagBytes_nonstrict_registers (search : Search) (ip : List Nat → Bool)
    (data p m s f : List Nat) (hsrch : search data = some (p, m, s))
    (hdec : decodeUtf8 m = some f) (hip : ip f = true)
    (hok : (find_flagBytes search false ip data).2 = false) :
    (data, m, f) ∈ (find_flagBytes search false ip data).1 := by
  have hst : searchStep search false ip data = ([(data, m, f)], false) := by
    unfold searchStep
    rw [hsrch]
    simp [hdec, hip]
  by_cases hfix : stripXml data = data
  · rw [find_flagBytes_fix search false ip data hfix, hst]
    simp
  · rw [find_flagBytes_ne search false ip data hfix] at hok ⊢
    by_cases hr : (find_flagBytes search false ip (stripXml data)).2
    · rw [if_pos hr] at hok
      exact absurd hok (by simp [hr])
    · rw [if_neg hr, hst]
      simp

/-- A search function whose every reported match is valid UTF-8. -/
def DecodesMatches (search : Search) : Prop :=
  ∀ c p m s, search c = some (p, m, s) → (decodeUtf8 m).isSome = true

mutual

/-- All `str` nodes of a data value are encodable to UTF-8 (no lone
surrogates), so Python's `str.encode` cannot raise on them. -/
def strsEncodable : PyData → Bool
  | .bytes _ => true
  | .str s => (encodeUtf8 s).isSome
  | .list items => strsEncodableList items

/-- `strsEncodable` over the elements of a list node. -/
def strsEncodableList : List PyData → Bool
  | [] => true
  | d :: ds => strsEncodable d && strsEncodableList ds

end

/-- `searchStep` can raise only at `match.group().decode('utf-8')`; if every
match decodes, it does not raise. -/
theorem searchStep_no_raise (search : Search) (strict : Bool) (ip : List Nat → Bool)
    (data : List Nat) (hd : DecodesMatches search) :
    (searchStep search strict ip data).2 = false := by
  unfold searchStep
  split
  · rfl
  · rename_i p m s hsr
    have hm := hd data p m s hsr
    match hdec : decodeUtf8 m with
    | none => rw [hdec] at hm; simp at hm
    | some found =>
      simp only [hdec]
      split
      · split
        · rfl
        · split
          · rfl
          · rfl
      · rfl

/-- `find_flagBytes` does not raise when every match of the search function
decodes as UTF-8. -/
theorem find_flagBytes_no_raise (search : Search) (strict : Bool) (ip : List Nat → Bool)
    (hd : DecodesMatches search) :
    ∀ n data, data.length ≤ n → (find_flagBytes search strict ip data).2 = false := by
  intro n
  induction n with
  | zero =>
    intro data hlen
    have hdata : data = [] := List.length_eq_zero.mp (Nat.le_zero.mp hlen)
    subst hdata
    rw [find_flagBytes_fix search strict ip [] (by simp [stripXml])]
    exact searchStep_no_raise search strict ip [] hd
  | succ n ih =>
    intro data hlen
    by_cases hfix : stripXml data = data
    · rw [find_flagBytes_fix search strict ip data hfix]
      exact searchStep_no_raise search strict ip data hd
    · rw [find_flagBytes_ne search strict ip data hfix]
      have hlt := stripXml_length_lt data hfix
      have hR := ih (stripXml data) (by omega)
      rw [hR]
      simp [searchStep_no_raise search strict ip data hd]

/-- Lift of `find_flagBytes_strict_spans` through list/str normalisation: both
parts of the mutual recursion preserve the whole-candidate property of strict
registrations. -/
theorem find_flag_strict_spans_aux (search : Search) (ip : List Nat → Bool)
    (hs : SearchSpans search) :
    ∀ n, (∀ data : PyData, sizeOf data ≤ n → ∀ c m f,
            (c, m, f) ∈ (find_flag search true ip data).1 → m = c) ∧
         (∀ ds : List PyData, sizeOf ds ≤ n → ∀ c m f,
            (c, m, f) ∈ (find_flagList search true ip ds).1 → m = c) := by
  intro n
  induction n with
  | zero =>
    constructor
    · intro data hsz
      cases data <;> simp [PyData.bytes.sizeOf_spec, PyData.str.sizeOf_spec,
        PyData.list.sizeOf_spec] at hsz
    · intro ds hsz
      cases ds <;> simp [List.nil.sizeOf_spec, List.cons.sizeOf_spec] at hsz
  | succ n ih =>
    constructor
    · intro data hsz c m f hmem
      cases data with
      | bytes bs =>
        rw [find_flag] at hmem
        exact find_flagBytes_strict_spans search ip hs bs.length bs (le_refl _) c m f hmem
      | str s =>
        rw [find_flag] at hmem
        split at hmem
        · exact find_flagBytes_strict_spans search ip hs _ _ (le_refl _) c m f hmem
        · simp at hmem
      | list items =>
        rw [find_flag] at hmem
        refine ih.2 items ?_ c m f hmem
        have hspec : sizeOf (PyData.list items) = 1 + sizeOf items := by simp
        omega
    · intro ds hsz c m f hmem
      cases ds with
      | nil =>
        rw [find_flagList] at hmem
        simp at hmem
      | cons d tl =>
        have hspec : sizeOf (d :: tl) = 1 + sizeOf d + sizeOf tl := by simp
        rw [find_flagList] at hmem
        by_cases hr : (find_flag search true ip d).2
        · rw [if_pos hr] at hmem
          exact ih.1 d (by omega) c m f hmem
        · rw [if_neg hr] at hmem
          simp only [List.mem_append] at hmem
          rcases hmem with hmem | hmem
          · exact ih.1 d (by omega) c m f hmem
          · exact ih.2 tl (by omega) c m f hmem

/-- Lift of `find_flagBytes_no_raise` through list/str normalisation. -/
theorem find_flag_no_raise_aux (search : Search) (ip : List Nat → Bool)
    (strict : Bool) (hd : DecodesMatches search) :
    ∀ n, (∀ data : PyData, sizeOf data ≤ n → strsEncodable data = true →
            (find_flag search strict ip data).2 = false) ∧
         (∀ ds : List PyData, sizeOf ds ≤ n → strsEncodableList ds = true →
            (find_flagList search strict ip ds).2 = false) := by
  intro n
  induction n with
  | zero =>
    constructor
    · intro data hsz
      cases data <;> simp [PyData.bytes.sizeOf_spec, PyData.str.sizeOf_spec,
        PyData.list.sizeOf_spec] at hsz
    · intro ds hsz
      cases ds <;> simp [List.nil.sizeOf_spec, List.cons.sizeOf_spec] at hsz
  | succ n ih =>
    constructor
    · intro data hsz henc
      cases data with
      | bytes bs =>
        rw [find_flag]
        exact find_flagBytes_no_raise search strict ip hd bs.length bs (le_refl _)
      | str s =>
        rw [find_flag]
        rw [strsEncodable] at henc
        match he : encodeUtf8 s with
        | none => rw [he] at henc; simp at henc
        | some bs =>
          simp only [he]
          exact find_flagBytes_no_raise search strict ip hd bs.length bs (le_refl _)
      | list items =>
        rw [find_flag]
        rw [strsEncodable] at henc
        refine ih.2 items ?_ henc
        have hspec : sizeOf (PyData.list items) = 1 + sizeOf items := by simp
        omega
    · intro ds hsz henc
      cases ds with
      | nil =>
        rw [find_flagList]
      | cons d tl =>
        have hspec : sizeOf (d :: tl) = 1 + sizeOf d + sizeOf tl := by simp
        rw [strsEncodableList] at henc
        simp only [Bool.and_eq_true] at henc
        rw [find_flagList]
        have h1 := ih.1 d (by omega) henc.1
        have h2 := ih.2 tl (by omega) henc.2
        rw [h1]
        simp [h2]

/-- A concrete search engine reporting no match on any input (used to
instantiate hypotheses at concrete inputs). -/
def searchNone : Search := fun _ => none

/-- A concrete search engine whose match is always the whole input (a valid
span decomposition with empty prefix and suffix). -/
def searchAll : Search := fun c => some ([], c, [])

/-- A printability predicate accepting everything. -/
def ipAll : List Nat → Bool := fun _ => true

/-- `searchAll` respects spans. -/
theorem searchAll_spans : SearchSpans searchAll := by
  intro c p m s h
  unfold searchAll at h
  simp at h
  rw [h.1, h.2.1, h.2.2]
  simp

/-- `searchNone` trivially decodes all (zero) matches. -/
theorem searchNone_decodes : DecodesMatches searchNone := by
  intro c p m s h
  simp [searchNone] at h

/-- C1: for every unit with `STRICT_FLAGS` true and every data input,
`find_flag` calls `register_flag` for a regex match only if the match spans
the entire candidate byte string (first conjunct: every registration made by
a strict run has its matched bytes equal to the whole candidate); with
`STRICT_FLAGS` false, any printable (and decodable) match is registered
whenever the call completes without raising (second conjunct). -/
theorem c1_strict_flag_requires_whole_span (search : Search) (ip : List Nat → Bool)
    (hs : SearchSpans search) :
    (∀ data : PyData, ∀ c m f, (c, m, f) ∈ (find_flag search true ip data).1 → m = c) ∧
    (∀ bs p m s f, search bs = some (p, m, s) → decodeUtf8 m = some f → ip f = true →
      (find_flagBytes search false ip bs).2 = false →
      (bs, m, f) ∈ (find_flagBytes search false ip bs).1) := by
  constructor
  · intro data c m f hmem
    exact (find_flag_strict_spans_aux search ip hs (sizeOf data)).1 data (le_refl _) c m f hmem
  · intro bs p m s f h1 h2 h3 h4
    exact find_flagBytes_nonstrict_registers search ip bs p m s f h1 h2 h3 h4

/-- Witness for C1: the hypotheses hold for the concrete whole-input engine
`searchAll`, and the theorem instantiates there. -/
theorem c1_strict_flag_requires_whole_span_witness :
    SearchSpans searchAll ∧
    ((∀ data : PyData, ∀ c m f, (c, m, f) ∈ (find_flag searchAll true ipAll data).1 → m = c) ∧
     (∀ bs p m s f, searchAll bs = some (p, m, s) → decodeUtf8 m = some f → ipAll f = true →
        (find_flagBytes searchAll false ipAll bs).2 = false →
        (bs, m, f) ∈ (find_flagBytes searchAll false ipAll bs).1)) :=
  ⟨searchAll_spans, c1_strict_flag_requires_whole_span searchAll ipAll searchAll_spans⟩

/-- Counterexample to C2: `find_flag` can raise.  With a span-respecting
engine (first conjunct) that matches the whole input, searching the single
byte `0xff` raises `UnicodeDecodeError` at `match.group().decode('utf-8')` —
the second component `true` records the raise. -/
theorem c2_find_flag_counterexample :
    SearchSpans searchAll ∧
    find_flag searchAll true ipAll (PyData.bytes [255]) = ([], true) := by
  refine ⟨searchAll_spans, ?_⟩
  rw [find_flag]
  rw [find_flagBytes_fix searchAll true ipAll [255] (by simp [stripXml])]
  have h255 : decodeUtf8 [255] = none := by
    rw [decodeUtf8]
    split
    · rfl
    · rename_i c r heq
      exact absurd heq (by unfold decode1; simp)
  unfold searchStep searchAll
  simp [h255]

/-- C2 (amended): `find_flag` never raises provided textual data is free of
lone surrogates and every regex match decodes as UTF-8; in particular the
search itself runs on the raw bytes, so byte data that is not valid UTF-8 is
searched without error as long as the matched span (if any) decodes. -/
theorem c2_find_flag_no_raise_amended (search : Search) (ip : List Nat → Bool)
    (strict : Bool) (data : PyData) (hd : DecodesMatches search)
    (henc : strsEncodable data = true) :
    (find_flag search strict ip data).2 = false :=
  (find_flag_no_raise_aux search ip strict hd (sizeOf data)).1 data (le_refl _) henc

/-- Witness for the amended C2: the no-match engine decodes all its matches,
the invalid-UTF-8 byte payload `[255]` has no `str` nodes, and the theorem
applies: the call does not raise even though the bytes are not UTF-8. -/
theorem c2_find_flag_no_raise_amended_witness :
    DecodesMatches searchNone ∧ strsEncodable (PyData.bytes [255]) = true ∧
    (find_flag searchNone false ipAll (PyData.bytes [255])).2 = false :=
  ⟨searchNone_decodes, by rw [strsEncodable],
   c2_find_flag_no_raise_amended searchNone ipAll false (PyData.bytes [255])
     searchNone_decodes (by rw [strsEncodable])⟩

/-- The `upstream` payload of `Manager.queue_target`: a Python `bytes` or
`str` value. -/
inductive PyPayload where
  | bytes (bs : List Nat)
  | str (s : List Nat)
deriving DecidableEq

/-- A code point Python's `str.strip()` removes by default: exactly the code
points for which `str.isspace()` is true — tab through carriage return
(0x09..0x0D), the ASCII separators 0x1C..0x1F, space, NEL (0x85), NBSP
(0xA0), Ogham space (0x1680), the U+2000..U+200A spaces, line and paragraph
separators (U+2028, U+2029), narrow NBSP (U+202F), medium mathematical space
(U+205F) and ideographic space (U+3000). -/
def isSpaceCp (c : Nat) : Bool :=
  (9 ≤ c ∧ c ≤ 13) ∨ (28 ≤ c ∧ c ≤ 32) ∨ c = 133 ∨ c = 160 ∨ c = 5760 ∨
  (8192 ≤ c ∧ c ≤ 8202) ∨ c = 8232 ∨ c = 8233 ∨ c = 8239 ∨ c = 8287 ∨ c = 12288

/-- Python `str.strip()`: drop whitespace from both ends. -/
def pyStrip (s : List Nat) : List Nat :=
  ((s.dropWhile isSpaceCp).reverse.dropWhile isSpaceCp).reverse

/-- The guard `upstream.strip() == ''` at the top of `queue_target`.  For a
`str` payload this tests emptiness after stripping; for a `bytes` payload,
`bytes.strip()` is `bytes` and `bytes == ''` is always `False` in Python 3
(bytes never compare equal to str), so the guard never fires. -/
def stripToEmptyCheck : PyPayload → Bool
  | .str s => pyStrip s = []
  | .bytes _ => false

/-- Lifecycle action of a `WorkItem`. -/
inductive WAction where
  | init
  | evaluate
  | abort
deriving DecidableEq

/-- One step of a case generator: advancing it yields a case or raises. -/
inductive CaseStep where
  | yields (c : Nat)
  | raises
deriving DecidableEq

/-- A `Unit` as the scheduler core sees it: identity, static policy
(`PRIORITY`, `STRICT_FLAGS`), the origin (root target) it belongs to, the
depth of its target, and its external behaviour (`enumerate` either raises or
yields a fixed sequence of cases, each case either a value or a raise when
the generator is advanced to it). -/
structure MUnit where
  uid : Nat
  PRIORITY : Int
  STRICT_FLAGS : Bool
  originId : Nat
  depth : Nat
  enumRaises : Bool
  gen : List CaseStep
deriving DecidableEq

/-- `Manager.WorkItem`: priority (compared), action, unit and generator (not
compared).  `generator = none` for `init` and `abort` items. -/
structure WorkItem where
  priority : Int
  action : WAction
  unit : Option MUnit
  generator : Option (List CaseStep)
deriving DecidableEq

/-- A Monitor callback, recorded in order of emission. -/
inductive Event where
  | on_data (uid : Nat)
  | on_flag (uid : Nat) (flag : List Nat)
  | on_artifact (uid : Nat)
  | on_depth_limit (uid : Nat)
  | on_exception (uid : Nat)
  | on_completion (didTimeout : Bool)
deriving DecidableEq

/-- A `Target` as built by `queue_target`: payload, depth (0 for roots,
parent depth + 1 otherwise) and the identifier of its root origin. -/
structure TargetInfo where
  upstream : PyPayload
  depth : Nat
  originId : Nat
deriving DecidableEq

/-- The mutable scheduler state: which origins are completed, the contents of
the work queue (in order of `put`), the Monitor events emitted so far, whether
`join` has returned, and the next fresh origin identifier. -/
structure MState where
  completedIds : List Nat
  queue : List WorkItem
  events : List Event
  joined : Bool
  nextOrigin : Nat
deriving DecidableEq

/-- Reading `origin.completed` for an origin identifier. -/
def MState.isCompleted (st : MState) (o : Nat) : Bool :=
  st.completedIds.contains o

/-- The configuration options the scheduler core reads. -/
structure Config where
  recurse : Bool
  maxDepth : Nat
deriving DecidableEq

/-- The external `Finder.match`: the units applicable to a target. -/
abbrev Finder := TargetInfo → List MUnit

/-- `Manager.register_flag`: emit `Monitor.on_flag` and set
`unit.origin.completed = True`. -/
def register_flag (st : MState) (u : MUnit) (flag : List Nat) : MState :=
  { st with
    events := st.events ++ [Event.on_flag u.uid flag],
    completedIds :=
      if st.completedIds.contains u.originId then st.completedIds
      else u.originId :: st.completedIds }

/-- `Manager.queue`: enqueue a fresh `init` item for the unit unless its
origin has completed. -/
def queue (st : MState) (u : MUnit) : MState :=
  if st.isCompleted u.originId then st
  else { st with
         queue := st.queue ++
           [{ priority := u.PRIORITY, action := WAction.init, unit := some u,
              generator := none }] }

/-- `Manager.requeue`: re-enqueue a partially consumed item with
`action = evaluate`, skipped if the origin has completed. -/
def requeue (st : MState) (item : WorkItem) : MState :=
  match item.unit with
  | some u =>
    if st.isCompleted u.originId then st
    else { st with queue := st.queue ++ [{ item with action := WAction.evaluate }] }
  | none => st

/-- Result of `queue_target`: a returned value or a raised `StateError`. -/
inductive QtRes where
  | ret (t : Option TargetInfo)
  | stateError
deriving DecidableEq

/-- `Manager.queue_target`: the emptiness guard, the completed-parent and
depth-limit checks, then target construction and one `queue` per unit the
finder yields.  Modelled from the spec: the `StateError` raised after `join`
for parentless calls lives in the `Target` constructor (`katana/target.py`,
not part of src/); per the spec and the `start`/`join` docstrings it rejects
new root targets once `join` has returned, while parented (recursion) calls
stay legal.  Construction happens after the emptiness and parent checks,
exactly where `self.target(upstream, parent)` is called in the source. -/
def queue_target (cfg : Config) (finder : Finder) (st : MState)
    (upstream : PyPayload) : Option MUnit → MState × QtRes
  | some p =>
    if stripToEmptyCheck upstream then (st, QtRes.ret none)
    else if st.isCompleted p.originId then (st, QtRes.ret none)
    else if cfg.maxDepth ≤ p.depth + 1 then
      ({ st with events := st.events ++ [Event.on_depth_limit p.uid] }, QtRes.ret none)
    else
      ((finder ⟨upstream, p.depth + 1, p.originId⟩).foldl queue st,
        QtRes.ret (some ⟨upstream, p.depth + 1, p.originId⟩))
  | none =>
    if stripToEmptyCheck upstream then (st, QtRes.ret none)
    else if st.joined then (st, QtRes.stateError)
    else
      ((finder ⟨upstream, 0, st.nextOrigin⟩).foldl queue
          { st with nextOrigin := st.nextOrigin + 1 },
        QtRes.ret (some ⟨upstream, 0, st.nextOrigin⟩))

/-- `Manager.register_artifact`: emit `Monitor.on_artifact`, then recurse via
`queue_target` when both the global and the local recurse switches are on. -/
def register_artifact (cfg : Config) (finder : Finder) (st : MState) (u : MUnit)
    (path : PyPayload) (recurse : Bool) : MState :=
  let st1 := { st with events := st.events ++ [Event.on_artifact u.uid] }
  if cfg.recurse ∧ recurse then (queue_target cfg finder st1 path (some u)).1
  else st1

/-- Replay the flag registrations recorded by `find_flag` against the
scheduler state (each one is a `register_flag` call). -/
def applyTrace (st : MState) (u : MUnit) (trace : List Reg) : MState :=
  trace.foldl (fun s r => register_flag s u r.2.2) st

/-- The payload `register_data` hands to `queue_target`; a `list` has no
`.strip()` so the guard raises `AttributeError` (modelled as `none`). -/
def toPayload : PyData → Option PyPayload
  | .bytes bs => some (PyPayload.bytes bs)
  | .str s => some (PyPayload.str s)
  | .list _ => none

/-- `Manager.register_data`: emit `Monitor.on_data`, run `find_flag` (whose
registrations mutate the state and whose exception propagates), then recurse
via `queue_target` when the global and local recurse switches are on and the
origin is still not completed.  The `Bool` result records a raise. -/
def register_data (cfg : Config) (finder : Finder) (search : Search)
    (ip : List Nat → Bool) (st : MState) (u : MUnit) (data : PyData)
    (recurse : Bool) : MState × Bool :=
  let st1 := { st with events := st.events ++ [Event.on_data u.uid] }
  let fr := find_flag search u.STRICT_FLAGS ip data
  let st2 := applyTrace st1 u fr.1
  if fr.2 then (st2, true)
  else if cfg.recurse ∧ ¬ st2.isCompleted u.originId ∧ recurse then
    match toPayload data with
    | some pl => ((queue_target cfg finder st2 pl (some u)).1, false)
    | none => (st2, true)
  else (st2, false)

/-- Outcome of one barrier wait inside the `join` loop: the barrier was reset
(`BrokenBarrierError`), the user pressed Ctrl+C (`KeyboardInterrupt`), or all
parties met the barrier. -/
inductive JEvent where
  | barrierBroken
  | interrupt
  | success
deriving DecidableEq

/-- State of the `join` wait loop: the `aborting` flag and the number of
`_signal_complete` calls made (each injects one abort item per worker at
priority -10000). -/
structure JoinState where
  aborting : Bool
  signals : Nat
deriving DecidableEq

/-- One iteration of the `join` wait loop with `timeout=None`: a broken
barrier falls through and loops; an interrupt breaks immediately if
`aborting` is already set, otherwise signals completion, sets `aborting` and
loops; a met barrier signals completion and breaks.  The `Bool` is `true`
when the loop breaks. -/
def joinStep (s : JoinState) : JEvent → JoinState × Bool
  | JEvent.barrierBroken => (s, false)
  | JEvent.interrupt =>
    if s.aborting then (s, true)
    else ({ aborting := true, signals := s.signals + 1 }, false)
  | JEvent.success => ({ s with signals := s.signals + 1 }, true)

/-- The `join` wait loop run over a sequence of barrier outcomes, stopping at
the first break. -/
def joinRun (s : JoinState) : List JEvent → JoinState
  | [] => s
  | e :: es =>
    let r := joinStep s e
    if r.2 then r.1 else joinRun r.1 es

/-- The source initialises `aborting = True` before the loop
(`manager.py` line 280). -/
def joinInit : JoinState := { aborting := true, signals := 0 }

/-- Result of one worker-loop iteration on a dequeued item: the worker exits
(abort), the worker thread dies on an uncaught exception, or it finishes the
item and loops, with the resulting state and the cases passed to
`unit.evaluate`. -/
inductive WStep where
  | exited
  | crashed
  | continued (st : MState) (evaluated : List Nat)
deriving DecidableEq

/-- `unit.evaluate(case)` wrapped in the worker's `try/except`: any raise is
routed to `Monitor.on_exception` and the worker continues. -/
def evalCatch (evalFn : MState → MUnit → Nat → MState × Bool) (st : MState)
    (u : MUnit) (c : Nat) : MState :=
  let r := evalFn st u c
  if r.2 then { r.1 with events := r.1.events ++ [Event.on_exception u.uid] }
  else r.1

/-- One iteration of `Manager._thread` on a dequeued work item: abort check,
completed-origin check, lazy `enumerate` on `init` (an exception here is not
caught and kills the thread), advance the generator (`StopIteration` discards
the item; any other exception kills the thread), re-enqueue before
evaluating, then evaluate with exceptions routed to the Monitor. -/
def workerStep (evalFn : MState → MUnit → Nat → MState × Bool) (st : MState)
    (w : WorkItem) : WStep :=
  if w.action = WAction.abort then WStep.exited
  else
    match w.unit with
    | none => WStep.crashed
    | some u =>
      if st.isCompleted u.originId then WStep.continued st []
      else
        match (if w.action = WAction.init then
                 (if u.enumRaises then none else some u.gen)
               else w.generator) with
        | none => WStep.crashed
        | some gen =>
          match gen with
          | [] => WStep.continued st []
          | CaseStep.raises :: _ => WStep.crashed
          | CaseStep.yields c :: rest =>
            let st2 := requeue st { w with action := WAction.evaluate, generator := some rest }
            WStep.continued (evalCatch evalFn st2 u c) [c]

/-- `register_flag` does not touch the work queue. -/
theorem register_flag_queue_eq (st : MState) (u : MUnit) (f : List Nat) :
    (register_flag st u f).queue = st.queue := rfl

/-- `register_flag` appends exactly one `on_flag` event. -/
theorem register_flag_events (st : MState) (u : MUnit) (f : List Nat) :
    (register_flag st u f).events = st.events ++ [Event.on_flag u.uid f] := rfl

/-- After `register_flag`, the unit's origin is completed. -/
theorem register_flag_completed_self (st : MState) (u : MUnit) (f : List Nat) :
    (register_flag st u f).isCompleted u.originId = true := by
  unfold register_flag MState.isCompleted
  split
  · assumption
  · simp [List.contains_cons]

/-- `register_flag` never un-completes an origin. -/
theorem register_flag_completed_mono (st : MState) (u : MUnit) (f : List Nat)
    (o : Nat) (h : st.isCompleted o = true) :
    (register_flag st u f).isCompleted o = true := by
  unfold MState.isCompleted at h
  unfold register_flag MState.isCompleted
  split
  · exact h
  · simp only [List.contains_cons, Bool.or_eq_true, beq_iff_eq]
    right
    exact h

/-- Repeating `register_flag` for the same origin leaves the completed set
unchanged: the write is idempotent. -/
theorem register_flag_idem (st : MState) (u : MUnit) (f f2 : List Nat) :
    (register_flag (register_flag st u f) u f2).completedIds =
      (register_flag st u f).completedIds := by
  have h := register_flag_completed_self st u f
  unfold MState.isCompleted at h
  show (if (register_flag st u f).completedIds.contains u.originId then
          (register_flag st u f).completedIds
        else u.originId :: (register_flag st u f).completedIds) =
      (register_flag st u f).completedIds
  rw [if_pos h]

/-- Replaying a flag trace does not touch the work queue. -/
theorem applyTrace_queue (u : MUnit) :
    ∀ tr st, (applyTrace st u tr).queue = st.queue := by
  intro tr
  induction tr with
  | nil => intro st; rfl
  | cons r tl ih =>
    intro st
    show (applyTrace (register_flag st u r.2.2) u tl).queue = st.queue
    rw [ih (register_flag st u r.2.2), register_flag_queue_eq]

/-- Replaying a flag trace appends exactly the corresponding `on_flag`
events. -/
theorem applyTrace_events (u : MUnit) :
    ∀ tr st, (applyTrace st u tr).events =
      st.events ++ tr.map (fun r => Event.on_flag u.uid r.2.2) := by
  intro tr
  induction tr with
  | nil => intro st; simp [applyTrace]
  | cons r tl ih =>
    intro st
    show (applyTrace (register_flag st u r.2.2) u tl).events = _
    rw [ih (register_flag st u r.2.2), register_flag_events]
    simp

/-- Replaying a flag trace never un-completes an origin. -/
theorem applyTrace_completed_mono (u : MUnit) :
    ∀ tr st o, st.isCompleted o = true → (applyTrace st u tr).isCompleted o = true := by
  intro tr
  induction tr with
  | nil => intro st o h; exact h
  | cons r tl ih =>
    intro st o h
    show (applyTrace (register_flag st u r.2.2) u tl).isCompleted o = true
    exact ih (register_flag st u r.2.2) o (register_flag_completed_mono st u r.2.2 o h)

/-- `Manager.queue` changes only the queue field. -/
theorem queue_fields (st : MState) (u : MUnit) :
    (queue st u).completedIds = st.completedIds ∧ (queue st u).events = st.events ∧
      (queue st u).joined = st.joined ∧ (queue st u).nextOrigin = st.nextOrigin := by
  unfold queue
  split <;> simp

/-- Folding `Manager.queue` over a unit list changes only the queue field. -/
theorem foldl_queue_fields :
    ∀ (us : List MUnit) (st : MState),
      (us.foldl queue st).completedIds = st.completedIds ∧
      (us.foldl queue st).events = st.events ∧
      (us.foldl queue st).joined = st.joined ∧
      (us.foldl queue st).nextOrigin = st.nextOrigin := by
  intro us
  induction us with
  | nil => intro st; simp
  | cons u tl ih =>
    intro st
    have h1 := queue_fields st u
    have h2 := ih (queue st u)
    simp only [List.foldl_cons]
    exact ⟨h2.1.trans h1.1, h2.2.1.trans h1.2.1, h2.2.2.1.trans h1.2.2.1,
      h2.2.2.2.trans h1.2.2.2⟩

/-- `queue_target` never changes the completed set. -/
theorem queue_target_completedIds (cfg : Config) (finder : Finder) (st : MState)
    (up : PyPayload) (par : Option MUnit) :
    ((queue_target cfg finder st up par).1).completedIds = st.completedIds := by
  cases par with
  | some p =>
    rw [queue_target]
    split
    · rfl
    · split
      · rfl
      · split
        · rfl
        · exact (foldl_queue_fields _ _).1
  | none =>
    rw [queue_target]
    split
    · rfl
    · split
      · rfl
      · exact (foldl_queue_fields _ _).1

/-- `queue_target` only appends to the event log. -/
theorem queue_target_events_ext (cfg : Config) (finder : Finder) (st : MState)
    (up : PyPayload) (par : Option MUnit) :
    ∃ ext, ((queue_target cfg finder st up par).1).events = st.events ++ ext := by
  cases par with
  | some p =>
    rw [queue_target]
    split
    · exact ⟨[], by simp⟩
    · split
      · exact ⟨[], by simp⟩
      · split
        · exact ⟨[Event.on_depth_limit p.uid], rfl⟩
        · exact ⟨[], by rw [(foldl_queue_fields _ _).2.1]; simp⟩
  | none =>
    rw [queue_target]
    split
    · exact ⟨[], by simp⟩
    · split
      · exact ⟨[], by simp⟩
      · exact ⟨[], by rw [(foldl_queue_fields _ _).2.1]; simp⟩

/-- `queue_target` with an already-completed parent changes nothing and
enqueues nothing. -/
theorem queue_target_completed_parent (cfg : Config) (finder : Finder)
    (st : MState) (up : PyPayload) (p : MUnit)
    (hc : st.isCompleted p.originId = true) :
    (queue_target cfg finder st up (some p)).1.queue = st.queue ∧
      (queue_target cfg finder st up (some p)).2 = QtRes.ret none := by
  rw [queue_target]
  by_cases hstrip : stripToEmptyCheck up = true
  · rw [if_pos hstrip]
    exact ⟨rfl, rfl⟩
  · rw [if_neg hstrip, if_pos hc]
    exact ⟨rfl, rfl⟩

/-- The state after `on_data` and the `find_flag` registrations inside
`register_data`. -/
def rdState (search : Search) (ip : List Nat → Bool) (st : MState) (u : MUnit)
    (data : PyData) : MState :=
  applyTrace { st with events := st.events ++ [Event.on_data u.uid] } u
    (find_flag search u.STRICT_FLAGS ip data).1

/-- `register_data` in terms of `rdState`. -/
theorem register_data_eq (cfg : Config) (finder : Finder) (search : Search)
    (ip : List Nat → Bool) (st : MState) (u : MUnit) (data : PyData)
    (recurse : Bool) :
    register_data cfg finder search ip st u data recurse =
      if (find_flag search u.STRICT_FLAGS ip data).2 then
        (rdState search ip st u data, true)
      else if cfg.recurse ∧ ¬ (rdState search ip st u data).isCompleted u.originId ∧ recurse then
        match toPayload data with
        | some pl => ((queue_target cfg finder (rdState search ip st u data) pl (some u)).1, false)
        | none => (rdState search ip st u data, true)
      else (rdState search ip st u data, false) := rfl

/-- When the origin is already completed, `register_data` leaves the queue
untouched (the recursion branch cannot fire). -/
theorem register_data_queue_of_completed (cfg : Config) (finder : Finder)
    (search : Search) (ip : List Nat → Bool) (st : MState) (u : MUnit)
    (data : PyData) (recurse : Bool) (hc : st.isCompleted u.originId = true) :
    (register_data cfg finder search ip st u data recurse).1.queue = st.queue := by
  have hq : (rdState search ip st u data).queue = st.queue := applyTrace_queue u _ _
  have hcm : (rdState search ip st u data).isCompleted u.originId = true :=
    applyTrace_completed_mono u _ _ _ hc
  rw [register_data_eq]
  split
  · exact hq
  · split
    · rename_i hcond
      exact absurd hcm hcond.2.1
    · exact hq

/-- `register_data` never un-completes an origin. -/
theorem register_data_completed_mono (cfg : Config) (finder : Finder)
    (search : Search) (ip : List Nat → Bool) (st : MState) (u : MUnit)
    (data : PyData) (recurse : Bool) (o : Nat) (h : st.isCompleted o = true) :
    (register_data cfg finder search ip st u data recurse).1.isCompleted o = true := by
  have hcm : (rdState search ip st u data).isCompleted o = true :=
    applyTrace_completed_mono u _ _ _ h
  rw [register_data_eq]
  split
  · exact hcm
  · split
    · split
      · show ((queue_target cfg finder (rdState search ip st u data) _ (some u)).1).isCompleted o = true
        unfold MState.isCompleted
        rw [queue_target_completedIds]
        exact hcm
      · exact hcm
    · exact hcm

/-- The events of `register_data`: `on_data` first, then the `on_flag` events
of the `find_flag` trace, then whatever recursion appended. -/
theorem register_data_events (cfg : Config) (finder : Finder) (search : Search)
    (ip : List Nat → Bool) (st : MState) (u : MUnit) (data : PyData)
    (recurse : Bool) :
    ∃ ext, (register_data cfg finder search ip st u data recurse).1.events =
      (st.events ++ Event.on_data u.uid ::
        (find_flag search u.STRICT_FLAGS ip data).1.map
          (fun r => Event.on_flag u.uid r.2.2)) ++ ext := by
  have hev : (rdState search ip st u data).events =
      st.events ++ Event.on_data u.uid ::
        (find_flag search u.STRICT_FLAGS ip data).1.map
          (fun r => Event.on_flag u.uid r.2.2) := by
    unfold rdState
    rw [applyTrace_events]
    simp
  rw [register_data_eq]
  split
  · exact ⟨[], by rw [hev]; simp⟩
  · split
    · split
      · obtain ⟨ext, hext⟩ := queue_target_events_ext cfg finder (rdState search ip st u data) _ (some u)
        exact ⟨ext, by rw [hext, hev]⟩
      · exact ⟨[], by rw [hev]; simp⟩
    · exact ⟨[], by rw [hev]; simp⟩

/-- When the origin is already completed, `register_artifact` leaves the
queue untouched: `queue_target` rejects the completed parent. -/
theorem register_artifact_queue_of_completed (cfg : Config) (finder : Finder)
    (st : MState) (u : MUnit) (path : PyPayload) (recurse : Bool)
    (hc : st.isCompleted u.originId = true) :
    (register_artifact cfg finder st u path recurse).queue = st.queue := by
  unfold register_artifact
  split
  · have := queue_target_completed_parent cfg finder
      { st with events := st.events ++ [Event.on_artifact u.uid] } path u hc
    exact this.1
  · rfl

/-- `register_artifact` never changes the completed set. -/
theorem register_artifact_completedIds (cfg : Config) (finder : Finder)
    (st : MState) (u : MUnit) (path : PyPayload) (recurse : Bool) :
    (register_artifact cfg finder st u path recurse).completedIds = st.completedIds := by
  unfold register_artifact
  split
  · rw [queue_target_completedIds]
  · rfl

/-- Equality of scheduler states up to the `joined` flag. -/
def EqModJoined (a b : MState) : Prop :=
  a.completedIds = b.completedIds ∧ a.queue = b.queue ∧ a.events = b.events ∧
    a.nextOrigin = b.nextOrigin

/-- `Manager.queue` preserves equality up to `joined`. -/
theorem queue_EqModJoined (s1 s2 : MState) (u : MUnit) (h : EqModJoined s1 s2) :
    EqModJoined (queue s1 u) (queue s2 u) := by
  obtain ⟨h1, h2, h3, h4⟩ := h
  unfold queue MState.isCompleted
  rw [h1]
  by_cases hc : s2.completedIds.contains u.originId = true
  · rw [if_pos hc, if_pos hc]
    exact ⟨h1, h2, h3, h4⟩
  · rw [if_neg hc, if_neg hc]
    exact ⟨rfl, by rw [h2], h3, h4⟩

/-- Folding `Manager.queue` preserves equality up to `joined`. -/
theorem foldl_queue_EqModJoined :
    ∀ (us : List MUnit) (s1 s2 : MState), EqModJoined s1 s2 →
      EqModJoined (us.foldl queue s1) (us.foldl queue s2) := by
  intro us
  induction us with
  | nil => intro s1 s2 h; exact h
  | cons u tl ih =>
    intro s1 s2 h
    simp only [List.foldl_cons]
    exact ih (queue s1 u) (queue s2 u) (queue_EqModJoined s1 s2 u h)

/-- Fixed configuration for concrete runs: recursion on, `max-depth` 10. -/
def cfg0 : Config := { recurse := true, maxDepth := 10 }

/-- A finder that matches no units. -/
def finder0 : Finder := fun _ => []

/-- The single unit the concrete finder yields for a target. -/
def unit1 (t : TargetInfo) : MUnit :=
  { uid := 1, PRIORITY := 0, STRICT_FLAGS := false, originId := t.originId,
    depth := t.depth, enumRaises := false, gen := [] }

/-- A finder that yields exactly one applicable unit per target. -/
def finder1 : Finder := fun t => [unit1 t]

/-- The pristine scheduler state. -/
def st0 : MState :=
  { completedIds := [], queue := [], events := [], joined := false, nextOrigin := 0 }

/-- A state whose `join` has already returned. -/
def stJoined : MState :=
  { completedIds := [], queue := [], events := [], joined := true, nextOrigin := 0 }

/-- A state in which origin 3 has found its flag. -/
def stDone : MState :=
  { completedIds := [3], queue := [], events := [], joined := false, nextOrigin := 4 }

/-- A unit of completed origin 3 sitting at depth 20 (beyond `max-depth`). -/
def pDeep : MUnit :=
  { uid := 7, PRIORITY := 0, STRICT_FLAGS := false, originId := 3, depth := 20,
    enumRaises := false, gen := [] }

/-- A unit whose `enumerate()` raises. -/
def uRaise : MUnit :=
  { uid := 9, PRIORITY := 0, STRICT_FLAGS := false, originId := 0, depth := 0,
    enumRaises := true, gen := [] }

/-- An `init` work item for `uRaise`. -/
def itemRaise : WorkItem :=
  { priority := 0, action := WAction.init, unit := some uRaise, generator := none }

/-- An evaluate function that does nothing and never raises. -/
def evalNop : MState → MUnit → Nat → MState × Bool := fun st _ _ => (st, false)

/-- C3: in the code, `aborting` is initialised `True` before the wait loop, so
the very first `KeyboardInterrupt` takes the already-signalled branch: the
loop breaks immediately, injecting no abort items (`signals` stays 0) and
ignoring any later barrier outcomes — it does not inject aborts and continue
waiting as the claim describes. -/
theorem c3_first_interrupt_breaks_immediately (es : List JEvent) :
    joinRun joinInit (JEvent.interrupt :: es) = joinInit := by
  rw [joinRun]
  simp [joinStep, joinInit]

/-- C4: once an origin is completed, a subsequent `register_data` or
`register_artifact` for a unit of that origin enqueues nothing: the work
queue is exactly as before the call. -/
theorem c4_completed_origin_blocks_recursion (cfg : Config) (finder : Finder)
    (search : Search) (ip : List Nat → Bool) (st : MState) (u : MUnit)
    (hc : st.isCompleted u.originId = true) :
    (∀ data recurse,
        (register_data cfg finder search ip st u data recurse).1.queue = st.queue) ∧
    (∀ path recurse,
        (register_artifact cfg finder st u path recurse).queue = st.queue) :=
  ⟨fun data recurse =>
      register_data_queue_of_completed cfg finder search ip st u data recurse hc,
   fun path recurse =>
      register_artifact_queue_of_completed cfg finder st u path recurse hc⟩

/-- Witness for C4 at a concrete completed origin. -/
theorem c4_completed_origin_blocks_recursion_witness :
    stDone.isCompleted pDeep.originId = true ∧
    ((∀ data recurse,
        (register_data cfg0 finder1 searchNone ipAll stDone pDeep data recurse).1.queue =
          stDone.queue) ∧
     (∀ path recurse,
        (register_artifact cfg0 finder1 stDone pDeep path recurse).queue = stDone.queue)) :=
  ⟨by decide,
   c4_completed_origin_blocks_recursion cfg0 finder1 searchNone ipAll stDone pDeep (by decide)⟩

/-- Counterexample to C5 as stated: when the parent's origin is already
completed, `queue_target` returns none on a depth-exceeding parent without
emitting `Monitor.on_depth_limit` — the completed-origin check precedes the
depth check. -/
theorem c5_depth_limit_counterexample :
    cfg0.maxDepth ≤ pDeep.depth + 1 ∧ stDone.isCompleted pDeep.originId = true ∧
    queue_target cfg0 finder0 stDone (PyPayload.bytes [97]) (some pDeep) =
      (stDone, QtRes.ret none) ∧
    (queue_target cfg0 finder0 stDone (PyPayload.bytes [97]) (some pDeep)).1.events = [] := by
  exact ⟨by decide, by decide, by decide, by decide⟩

/-- C5 (amended): every Target created by `queue_target` has depth ≤
`max-depth` (roots have depth 0, children require `parent.depth + 1 <
max-depth`); and when `parent.depth + 1 ≥ max-depth`, the payload passes the
emptiness guard and the parent's origin is not completed, `queue_target`
emits `Monitor.on_depth_limit`, creates no Target and returns none. -/
theorem c5_depth_limit_amended (cfg : Config) (finder : Finder) :
    (∀ st up parent st2 t,
        queue_target cfg finder st up parent = (st2, QtRes.ret (some t)) →
        t.depth ≤ cfg.maxDepth) ∧
    (∀ st up p, stripToEmptyCheck up = false → st.isCompleted p.originId = false →
        cfg.maxDepth ≤ p.depth + 1 →
        queue_target cfg finder st up (some p) =
          ({ st with events := st.events ++ [Event.on_depth_limit p.uid] },
            QtRes.ret none)) := by
  constructor
  · intro st up parent st2 t heq
    cases parent with
    | some p =>
      rw [queue_target] at heq
      split at heq
      · simp at heq
      · split at heq
        · simp at heq
        · split at heq
          · simp at heq
          · rename_i hdepth
            simp at heq
            rw [← heq.2]
            simp
            omega
    | none =>
      rw [queue_target] at heq
      split at heq
      · simp at heq
      · split at heq
        · simp at heq
        · simp at heq
          rw [← heq.2]
          simp
  · intro st up p h1 h2 h3
    rw [queue_target]
    rw [if_neg (by simp [h1]), if_neg (by simp [h2]), if_pos h3]

/-- Witness for the amended C5: a created root target is within the depth
bound, and a concrete deep, uncompleted parent triggers the depth-limit
event. -/
theorem c5_depth_limit_amended_witness :
    (⟨PyPayload.bytes [97], 0, 0⟩ : TargetInfo).depth ≤ cfg0.maxDepth ∧
    queue_target cfg0 finder0 st0 (PyPayload.bytes [97])
        (some { pDeep with originId := 5 }) =
      ({ st0 with events := [Event.on_depth_limit pDeep.uid] }, QtRes.ret none) :=
  ⟨(c5_depth_limit_amended cfg0 finder0).1 st0 (PyPayload.bytes [97]) none
      { st0 with nextOrigin := 1 } ⟨PyPayload.bytes [97], 0, 0⟩ (by decide),
   (c5_depth_limit_amended cfg0 finder0).2 st0 (PyPayload.bytes [97])
      { pDeep with originId := 5 } (by decide) (by decide) (by decide)⟩

/-- C6: the guard `upstream.strip() == ''` compares bytes with str, which is
always `False` in Python 3, so an empty byte payload is not ignored: a Target
is created and a WorkItem is enqueued for it, contrary to the claim (and to
the check's evident intent). -/
theorem c6_empty_bytes_payload_not_ignored :
    (queue_target cfg0 finder1 st0 (PyPayload.bytes []) none).2 =
      QtRes.ret (some ⟨PyPayload.bytes [], 0, 0⟩) ∧
    (queue_target cfg0 finder1 st0 (PyPayload.bytes []) none).1.queue ≠ [] ∧
    stripToEmptyCheck (PyPayload.str []) = true := by
  exact ⟨by decide, by decide, by decide⟩

/-- Counterexample to C7 as stated: after `join`, a parentless call whose
payload trims to empty returns none from the emptiness guard instead of
raising `StateError` — the guard precedes target construction. -/
theorem c7_post_join_counterexample :
    stJoined.joined = true ∧
    queue_target cfg0 finder1 stJoined (PyPayload.str []) none =
      (stJoined, QtRes.ret none) := by
  exact ⟨by decide, by decide⟩

/-- C7 (amended, spec-modelled): after `join` has returned, a parentless
`queue_target` whose payload passes the emptiness guard raises `StateError`;
calls with a parent never raise it and behave exactly as before `join`
(their result differs at most in the carried `joined` flag). -/
theorem c7_post_join_amended (cfg : Config) (finder : Finder) :
    (∀ st up, st.joined = true → stripToEmptyCheck up = false →
        (queue_target cfg finder st up none).2 = QtRes.stateError) ∧
    (∀ st up p,
        (queue_target cfg finder st up (some p)).2 =
          (queue_target cfg finder { st with joined := false } up (some p)).2 ∧
        EqModJoined (queue_target cfg finder st up (some p)).1
          (queue_target cfg finder { st with joined := false } up (some p)).1) := by
  constructor
  · intro st up hj hstrip
    rw [queue_target]
    rw [if_neg (by simp [hstrip]), if_pos hj]
  · intro st up p
    rw [queue_target, queue_target]
    by_cases hstrip : stripToEmptyCheck up = true
    · rw [if_pos hstrip, if_pos hstrip]
      exact ⟨rfl, rfl, rfl, rfl, rfl⟩
    · rw [if_neg hstrip, if_neg hstrip]
      by_cases hc : st.isCompleted p.originId = true
      · rw [if_pos hc, if_pos (show ({ st with joined := false } : MState).isCompleted p.originId = true from hc)]
        exact ⟨rfl, rfl, rfl, rfl, rfl⟩
      · rw [if_neg hc, if_neg (show ¬ ({ st with joined := false } : MState).isCompleted p.originId = true from hc)]
        by_cases hd : cfg.maxDepth ≤ p.depth + 1
        · rw [if_pos hd, if_pos hd]
          exact ⟨rfl, rfl, rfl, rfl, rfl⟩
        · rw [if_neg hd, if_neg hd]
          refine ⟨rfl, ?_⟩
          exact foldl_queue_EqModJoined _ st { st with joined := false } ⟨rfl, rfl, rfl, rfl⟩

/-- Witness for the amended C7 at concrete inputs: a post-join root call with
a non-empty payload raises `StateError`, and a parented call in the same
state is unaffected. -/
theorem c7_post_join_amended_witness :
    stJoined.joined = true ∧ stripToEmptyCheck (PyPayload.bytes [97]) = false ∧
    (queue_target cfg0 finder1 stJoined (PyPayload.bytes [97]) none).2 = QtRes.stateError ∧
    ((queue_target cfg0 finder1 stJoined (PyPayload.bytes [97]) (some pDeep)).2 =
        (queue_target cfg0 finder1 { stJoined with joined := false }
          (PyPayload.bytes [97]) (some pDeep)).2 ∧
      EqModJoined (queue_target cfg0 finder1 stJoined (PyPayload.bytes [97]) (some pDeep)).1
        (queue_target cfg0 finder1 { stJoined with joined := false }
          (PyPayload.bytes [97]) (some pDeep)).1) :=
  ⟨by decide, by decide,
   (c7_post_join_amended cfg0 finder1).1 stJoined (PyPayload.bytes [97]) (by decide) (by decide),
   (c7_post_join_amended cfg0 finder1).2 stJoined (PyPayload.bytes [97]) pDeep⟩

/-- Counterexample to C8 as stated: a raising `enumerate()` does not lead to
the worker continuing with the next queue item — the exception is not caught
and the worker thread dies. -/
theorem c8_enumerate_exception_counterexample :
    workerStep evalNop st0 itemRaise = WStep.crashed ∧
    workerStep evalNop st0 itemRaise ≠ WStep.continued st0 [] := by
  exact ⟨by decide, by decide⟩

/-- C8 (amended): when the generator is exhausted (`StopIteration`), the item
is discarded, `evaluate` is not invoked and the worker continues; but an
exception raised by `unit.enumerate()` itself, or a non-`StopIteration`
exception from advancing the generator, is not caught: it propagates and
terminates the worker thread (with `evaluate` likewise not invoked). -/
theorem c8_enumerate_exception_amended (evalFn : MState → MUnit → Nat → MState × Bool)
    (st : MState) (w : WorkItem) (u : MUnit)
    (ha : w.action = WAction.init) (hu : w.unit = some u)
    (hc : st.isCompleted u.originId = false) :
    (u.enumRaises = true → workerStep evalFn st w = WStep.crashed) ∧
    (u.enumRaises = false → u.gen = [] →
        workerStep evalFn st w = WStep.continued st []) ∧
    (∀ rest, u.enumRaises = false → u.gen = CaseStep.raises :: rest →
        workerStep evalFn st w = WStep.crashed) := by
  refine ⟨fun hr => ?_, fun hr hg => ?_, fun rest hr hg => ?_⟩
  · simp [workerStep, ha, hu, hc, hr]
  · simp [workerStep, ha, hu, hc, hr, hg]
  · simp [workerStep, ha, hu, hc, hr, hg]

/-- Witness for the amended C8 at the concrete raising unit. -/
theorem c8_enumerate_exception_amended_witness :
    itemRaise.action = WAction.init ∧ itemRaise.unit = some uRaise ∧
    st0.isCompleted uRaise.originId = false ∧
    ((uRaise.enumRaises = true → workerStep evalNop st0 itemRaise = WStep.crashed) ∧
     (uRaise.enumRaises = false → uRaise.gen = [] →
        workerStep evalNop st0 itemRaise = WStep.continued st0 []) ∧
     (∀ rest, uRaise.enumRaises = false → uRaise.gen = CaseStep.raises :: rest →
        workerStep evalNop st0 itemRaise = WStep.crashed)) :=
  ⟨by decide, by decide, by decide,
   c8_enumerate_exception_amended evalNop st0 itemRaise uRaise
     (by decide) (by decide) (by decide)⟩

/-- C9: `register_flag` is idempotent and monotonic on the origin's completed
flag: after one call the flag is true, a repeated call leaves the completed
set unchanged, and no modelled operation (`register_flag`, `register_data`,
`register_artifact`, `queue_target`) ever takes a completed origin back to
false. -/
theorem c9_register_flag_idempotent_monotonic :
    (∀ st u f, (register_flag st u f).isCompleted u.originId = true) ∧
    (∀ st u f f2, (register_flag (register_flag st u f) u f2).completedIds =
        (register_flag st u f).completedIds) ∧
    (∀ st u f o, st.isCompleted o = true →
        (register_flag st u f).isCompleted o = true) ∧
    (∀ cfg finder search ip st u data r o, st.isCompleted o = true →
        (register_data cfg finder search ip st u data r).1.isCompleted o = true) ∧
    (∀ cfg finder st u path r o, st.isCompleted o = true →
        (register_artifact cfg finder st u path r).isCompleted o = true) ∧
    (∀ cfg finder st up par o, st.isCompleted o = true →
        ((queue_target cfg finder st up par).1).isCompleted o = true) := by
  refine ⟨register_flag_completed_self, register_flag_idem,
    fun st u f o h => register_flag_completed_mono st u f o h,
    fun cfg finder search ip st u data r o h =>
      register_data_completed_mono cfg finder search ip st u data r o h,
    fun cfg finder st u path r o h => ?_,
    fun cfg finder st up par o h => ?_⟩
  · unfold MState.isCompleted
    rw [register_artifact_completedIds]
    exact h
  · unfold MState.isCompleted
    rw [queue_target_completedIds]
    exact h

/-- Witness for C9: its monotonicity part applied at a concrete completed
state. -/
theorem c9_register_flag_idempotent_monotonic_witness :
    stDone.isCompleted 3 = true ∧
    (register_flag stDone pDeep [70]).isCompleted 3 = true :=
  ⟨by decide,
   c9_register_flag_idempotent_monotonic.2.2.1 stDone pDeep [70] 3 (by decide)⟩

/-- C10: `register_data` always emits `Monitor.on_data` (as the first new
event) and always runs `find_flag` (all the `on_flag` events of its trace are
emitted), even when the origin is already completed; completion suppresses
only the recursive `queue_target` step (the queue is untouched), not data
reporting or flag search. -/
theorem c10_register_data_always_reports (cfg : Config) (finder : Finder)
    (search : Search) (ip : List Nat → Bool) (st : MState) (u : MUnit)
    (data : PyData) (recurse : Bool) :
    ((register_data cfg finder search ip st u data recurse).1.events.take
        (st.events.length + 1) = st.events ++ [Event.on_data u.uid]) ∧
    (∀ r ∈ (find_flag search u.STRICT_FLAGS ip data).1,
        Event.on_flag u.uid r.2.2 ∈
          (register_data cfg finder search ip st u data recurse).1.events) ∧
    (st.isCompleted u.originId = true →
        (register_data cfg finder search ip st u data recurse).1.queue = st.queue) := by
  obtain ⟨ext, hev⟩ := register_data_events cfg finder search ip st u data recurse
  refine ⟨?_, ?_, fun hc =>
    register_data_queue_of_completed cfg finder search ip st u data recurse hc⟩
  · rw [hev]
    have hassoc : (st.events ++ Event.on_data u.uid ::
          (find_flag search u.STRICT_FLAGS ip data).1.map
            (fun r => Event.on_flag u.uid r.2.2)) ++ ext =
        (st.events ++ [Event.on_data u.uid]) ++
          ((find_flag search u.STRICT_FLAGS ip data).1.map
            (fun r => Event.on_flag u.uid r.2.2) ++ ext) := by
      simp
    rw [hassoc]
    rw [List.take_left' (by simp)]
  · intro r hr
    rw [hev]
    have hm : Event.on_flag u.uid r.2.2 ∈
        (find_flag search u.STRICT_FLAGS ip data).1.map
          (fun r => Event.on_flag u.uid r.2.2) := List.mem_map_of_mem _ hr
    simp only [List.mem_append, List.mem_cons]
    exact Or.inl (Or.inr (Or.inr hm))

/-- Witness for C10: its completed-origin part applied at a concrete state. -/
theorem c10_register_data_always_reports_witness :
    stDone.isCompleted pDeep.originId = true ∧
    (register_data cfg0 finder1 searchNone ipAll stDone pDeep
        (PyData.bytes [70]) true).1.queue = stDone.queue :=
  ⟨by decide,
   (c10_register_data_always_reports cfg0 finder1 searchNone ipAll stDone pDeep
      (PyData.bytes [70]) true).2.2 (by decide)⟩

end Katana
